import Mathlib

set_option linter.unusedVariables false

/-!
Shallow embedding of the `VectorQuantization` layer of
`ddsp/training/nn.py` (vector quantization with EMA codebook
maintenance and dead-code restart).

Tensors are modelled as lists of rationals: a `[N, depth]` batch is a
`List (List ℚ)`.  The leading dimensions of an input of shape
`[..., depth]` are modelled already flattened to `N`, which is exactly
what `tf.reshape(x, (-1, depth))` produces at the start of `call`.
Random draws (`tf.random.uniform`, `tf.random.shuffle`) are passed in
explicitly as parameters `rand` and `shuffled`.  The straight-through
estimator `z = x + stop_gradient(z - x)` is modelled on forward values
by the scalar operation `stVal`, and its autodiff behaviour by a
forward-mode dual-number semantics (`Dual`, `stopGradient`,
`straightThrough`).
-/

namespace DDSP

abbrev Vec := List ℚ
abbrev Mat := List (List ℚ)

/-- `tf.math.divide_no_nan a b`: `a / b`, but `0` whenever `b = 0`. -/
def divideNoNan (a b : ℚ) : ℚ := if b = 0 then 0 else a / b

/-- Configuration of the quantizer (`VectorQuantization.__init__`). -/
structure VQ where
  k : ℕ
  gamma : ℚ
  restartThreshold : ℚ
  numHeads : ℕ
  commitmentLossWeight : ℚ
deriving DecidableEq

/-- Persistent codebook state: `self.counts` (shape `[k]`) and
`self.sums` (shape `[k, depth // num_heads]`). -/
structure VQState where
  counts : List ℚ
  sums : Mat
deriving DecidableEq

/-- `VectorQuantization.build`: checks `depth % num_heads != 0` (raising
`ValueError` otherwise) and creates zero-initialized `counts` and
`sums` variables. -/
def build (vq : VQ) (depth : ℕ) : Except String VQState :=
  if depth % vq.numHeads ≠ 0 then
    Except.error "Input depth must be a multiple of the number of heads."
  else
    Except.ok
      { counts := List.replicate vq.k 0
        sums := List.replicate vq.k (List.replicate (depth / vq.numHeads) 0) }

/-- `tf.split(x_flat, num_heads, axis=1)` followed by
`tf.concat(..., axis=0)`: row `h * N + n` of the result is columns
`[h*d, h*d + d)` of row `n` of `x`. -/
def splitHeads (H d : ℕ) (x : Mat) : Mat :=
  ((List.range H).map (fun h => x.map (fun r => (r.drop (h * d)).take d))).flatten

/-- Inner product of two vectors (`tf.matmul` entry). -/
def dot (a b : Vec) : ℚ := (List.zipWith (fun p q => p * q) a b).sum

/-- `tf.reduce_sum(v ** 2)`. -/
def sumSq (a : Vec) : ℚ := (a.map (fun v => v * v)).sum

/-- One row of the distance matrix
`||x||^2 - 2 x e^T + ||e||^2` (line 883-887 of `nn.py`). -/
def distanceRow (e : Mat) (r : Vec) : Vec :=
  e.map (fun ei => sumSq r - 2 * dot r ei + sumSq ei)

/-- Helper for `argmin`: scans the tail keeping the best (strictly
smaller) value, ties broken towards the earlier index. -/
def argminAux : List ℚ → ℕ → ℕ → ℚ → ℕ
  | [], _, bi, _ => bi
  | v :: rest, i, bi, bv =>
    if v < bv then argminAux rest (i + 1) i v else argminAux rest (i + 1) bi bv

/-- `tf.argmin` along a row, first minimal index wins. -/
def argmin : List ℚ → ℕ
  | [] => 0
  | v :: rest => argminAux rest 1 0 v

/-- `tf.math.divide_no_nan(self.sums, self.counts[:, None])`: the
centroid matrix used outside of training. -/
def centroids (st : VQState) : Mat :=
  List.zipWith (fun s c => s.map (fun v => divideNoNan v c)) st.sums st.counts

/-- `keep = self.counts * self.k > self.restart_threshold * n`. -/
def keepMask (vq : VQ) (counts : List ℚ) (n : ℕ) : List Bool :=
  counts.map (fun c => decide (vq.restartThreshold * (n : ℚ) < c * (vq.k : ℚ)))

/-- `restart_idx = tf.squeeze(tf.where(restart), -1)`: the (ascending)
indices at which `keep` is false. -/
def restartIndices (keep : List Bool) : List ℕ :=
  (List.range keep.length).filter (fun i => !(keep.getD i false))

/-- `tf.tensor_scatter_nd_update base idx vals`. -/
def scatterUpdate (base : Mat) (idx : List ℕ) (vals : Mat) : Mat :=
  (idx.zip vals).foldl (fun m p => m.set p.1 p.2) base

/-- The training-mode centroid matrix `e` (lines 852-876): keep
centroids with enough mass, scatter the first `n_replace` shuffled
batch rows over the dead ones, and fall back to the uniform draw
`rand` for any dead centroid beyond `n_replace`. -/
def trainCentroids (vq : VQ) (st : VQState) (n : ℕ) (rand shuffled : Mat) : Mat :=
  let keep := keepMask vq st.counts n
  let ridx := restartIndices keep
  let nReplace := min ridx.length n
  let eRestart := scatterUpdate rand (ridx.take nReplace) (shuffled.take nReplace)
  (List.range st.counts.length).map (fun i =>
    if keep.getD i false then
      (st.sums.getD i []).map (fun v => divideNoNan v (st.counts.getD i 0))
    else eRestart.getD i [])

/-- Centroid matrix actually used by `call`, by mode. -/
def centroidsFor (vq : VQ) (st : VQState) (n : ℕ) (training : Bool)
    (rand shuffled : Mat) : Mat :=
  if training then trainCentroids vq st n rand shuffled else centroids st

/-- `c = tf.argmin(distances, axis=1)`. -/
def nearestCodes (e xflat : Mat) : List ℕ :=
  xflat.map (fun r => argmin (distanceRow e r))

/-- `tf.nn.embedding_lookup(e, c)`. -/
def lookupRows (e : Mat) (c : List ℕ) : Mat :=
  c.map (fun ci => e.getD ci [])

/-- `tf.split(z, num_heads, axis=0)` followed by
`tf.concat(..., axis=1)`: row `n` of the result is the concatenation of
rows `h * N + n` of `z` over the heads `h`. -/
def unsplitHeads (H N : ℕ) (z : Mat) : Mat :=
  (List.range N).map (fun nn => ((List.range H).map (fun h => z.getD (h * N + nn) [])).flatten)

/-- `tf.split(c, num_heads, axis=0)`, `tf.stack(..., axis=1)` and the
final reshape: the code tensor of shape `[N, num_heads]`. -/
def codesReshape (H N : ℕ) (c : List ℕ) : List (List ℕ) :=
  (List.range N).map (fun nn => (List.range H).map (fun h => c.getD (h * N + nn) 0))

/-- `counts = tf.reduce_sum(tf.one_hot(c, k), axis=0)`: per-centroid
assignment counts for the batch. -/
def batchCounts (k : ℕ) (c : List ℕ) : List ℚ :=
  (List.range k).map (fun i => ((c.filter (fun j => j = i)).length : ℚ))

/-- Elementwise vector sum. -/
def vecAdd (a b : Vec) : Vec := List.zipWith (fun p q => p + q) a b

/-- `sums = tf.matmul(oh, x_flat, transpose_a=True)`: row `i` is the sum
of the rows of `x_flat` assigned to centroid `i`. -/
def batchSums (k d : ℕ) (c : List ℕ) (xflat : Mat) : Mat :=
  (List.range k).map (fun i =>
    (((c.zip xflat).filter (fun p => p.1 = i)).map (fun p => p.2)).foldl
      vecAdd (List.replicate d 0))

/-- `v.assign_sub((1 - gamma) * (v - batch))` on a vector variable. -/
def emaUpdate (g : ℚ) (old batch : List ℚ) : List ℚ :=
  List.zipWith (fun o b => o - (1 - g) * (o - b)) old batch

/-- `v.assign_sub((1 - gamma) * (v - batch))` on a matrix variable. -/
def emaUpdateMat (g : ℚ) (old batch : Mat) : Mat :=
  List.zipWith (fun o b => List.zipWith (fun p q => p - (1 - g) * (p - q)) o b) old batch

/-- Forward value of `x + stop_gradient(q - x)` at one scalar entry. -/
def stVal (a b : ℚ) : ℚ := a + (b - a)

/-- Forward-value lookup part of `call`: split into heads, pick the
centroid matrix, find nearest codes, look them up, and reassemble the
head chunks (lines 846-850, 852-896 before the straight-through line). -/
def quantLookup (vq : VQ) (depth : ℕ) (st : VQState) (x : Mat) (training : Bool)
    (rand shuffled : Mat) : Mat :=
  let d := depth / vq.numHeads
  let xflat := splitHeads vq.numHeads d x
  let e := centroidsFor vq st xflat.length training rand shuffled
  unsplitHeads vq.numHeads x.length (lookupRows e (nearestCodes e xflat))

/-- Result of one `call`: the straight-through quantized batch `z`, the
code tensor, and the (possibly updated) persistent state. -/
structure QuantizeResult where
  z : Mat
  code : List (List ℕ)
  state : VQState
deriving DecidableEq

/-- `VectorQuantization.call(x, training)` (lines 845-913), with the
random draws passed explicitly: `rand` stands for
`tf.random.uniform([k, depth // num_heads])` and `shuffled` for
`tf.random.shuffle(x_flat)`. -/
def quantize (vq : VQ) (depth : ℕ) (st : VQState) (x : Mat) (training : Bool)
    (rand shuffled : Mat) : QuantizeResult :=
  let d := depth / vq.numHeads
  let xflat := splitHeads vq.numHeads d x
  let e := centroidsFor vq st xflat.length training rand shuffled
  let c := nearestCodes e xflat
  let zq := unsplitHeads vq.numHeads x.length (lookupRows e c)
  let z := List.zipWith (fun xr zr => List.zipWith stVal xr zr) x zq
  let st1 :=
    if training then
      { counts := emaUpdate vq.gamma st.counts (batchCounts vq.k c)
        sums := emaUpdateMat vq.gamma st.sums (batchSums vq.k d c xflat) }
    else st
  { z := z, code := codesReshape vq.numHeads x.length c, state := st1 }

/-- `VectorQuantization.unquantize(c)` (lines 915-918): pure lookup of
`divide_no_nan(sums, counts)` at the codes, head chunks re-joined to
width `depth`. -/
def unquantize (vq : VQ) (depth : ℕ) (st : VQState) (code : List (List ℕ)) : Mat :=
  let e := centroids st
  code.map (fun row => (row.map (fun ci => e.getD ci [])).flatten)

/-- Forward-mode dual number: value and derivative with respect to the
single scalar input being differentiated. -/
structure Dual where
  val : ℚ
  der : ℚ
deriving DecidableEq

/-- Dual-number addition. -/
def Dual.add (a b : Dual) : Dual := ⟨a.val + b.val, a.der + b.der⟩

/-- Dual-number subtraction. -/
def Dual.sub (a b : Dual) : Dual := ⟨a.val - b.val, a.der - b.der⟩

/-- `tf.stop_gradient`: same forward value, zero derivative. -/
def stopGradient (a : Dual) : Dual := ⟨a.val, 0⟩

/-- The straight-through line `z = x + tf.stop_gradient(z - x)`
(line 897) at one scalar entry, over dual numbers. -/
def straightThrough (x q : Dual) : Dual := Dual.add x (stopGradient (Dual.sub q x))

/-! ### Helper lemmas about list indexing -/

theorem getD_eq_of_le {α : Type _} (l : List α) (i : ℕ) (d : α) (h : l.length ≤ i) :
    l.getD i d = d := by
  rw [List.getD_eq_getElem?_getD, List.getElem?_eq_none h]
  rfl

theorem getD_map_of_lt {α β : Type _} (f : α → β) (l : List α) (i : ℕ) (d : α) (d' : β)
    (h : i < l.length) : (l.map f).getD i d' = f (l.getD i d) := by
  rw [List.getD_eq_getElem?_getD, List.getD_eq_getElem?_getD, List.getElem?_map,
    List.getElem?_eq_getElem h]
  rfl

theorem getD_range_map {β : Type _} (f : ℕ → β) (n i : ℕ) (d : β) (h : i < n) :
    ((List.range n).map f).getD i d = f i := by
  rw [getD_map_of_lt f _ i 0 d (by simpa using h)]
  congr 1
  rw [List.getD_eq_getElem?_getD, List.getElem?_eq_getElem (by simpa using h)]
  simp

theorem getD_mem_of_lt {α : Type _} (l : List α) (i : ℕ) (d : α) (h : i < l.length) :
    l.getD i d ∈ l := by
  rw [List.getD_eq_getElem?_getD, List.getElem?_eq_getElem h]
  exact List.getElem_mem h

theorem getD_zipWith_of_lt {α β γ : Type _} (f : α → β → γ) (l₁ : List α) (l₂ : List β)
    (i : ℕ) (d₁ : α) (d₂ : β) (d : γ) (h₁ : i < l₁.length) (h₂ : i < l₂.length) :
    (List.zipWith f l₁ l₂).getD i d = f (l₁.getD i d₁) (l₂.getD i d₂) := by
  have hl : i < (List.zipWith f l₁ l₂).length := by
    rw [List.length_zipWith]; omega
  rw [List.getD_eq_getElem?_getD, List.getElem?_eq_getElem hl,
    List.getD_eq_getElem?_getD, List.getElem?_eq_getElem h₁,
    List.getD_eq_getElem?_getD, List.getElem?_eq_getElem h₂]
  simp [List.getElem_zipWith]

theorem length_splitHeads (H d : ℕ) (x : Mat) : (splitHeads H d x).length = H * x.length := by
  simp [splitHeads, List.length_flatten, List.map_map, Function.comp_def, List.map_const',
    List.sum_replicate, smul_eq_mul, mul_comm]

theorem zipWith_stVal_eq (a b : Vec) (h : b.length ≤ a.length) : List.zipWith stVal a b = b := by
  induction b generalizing a with
  | nil => simp
  | cons y ys ih =>
    cases a with
    | nil => simp at h
    | cons x xs =>
      simp only [List.zipWith_cons_cons, List.cons.injEq]
      exact ⟨by unfold stVal; ring, ih xs (by simpa using h)⟩

theorem stMat_rows_eq (x zq : Mat) (hlen : zq.length = x.length)
    (hw : ∀ i, (zq.getD i []).length ≤ (x.getD i []).length) :
    List.zipWith (fun xr zr => List.zipWith stVal xr zr) x zq = zq := by
  induction x generalizing zq with
  | nil =>
    cases zq with
    | nil => simp
    | cons zr zs => simp at hlen
  | cons xr xs ih =>
    cases zq with
    | nil => simp
    | cons zr zs =>
      simp only [List.zipWith_cons_cons, List.cons.injEq]
      exact ⟨zipWith_stVal_eq xr zr (hw 0), ih zs (by simpa using hlen) (fun i => hw (i + 1))⟩

theorem exists_of_mem_zipWith {α β γ : Type _} (f : α → β → γ) :
    ∀ (l₁ : List α) (l₂ : List β) (c : γ), c ∈ List.zipWith f l₁ l₂ →
      ∃ a ∈ l₁, ∃ b ∈ l₂, c = f a b
  | [], _, c, h => by simp at h
  | _ :: _, [], c, h => by simp at h
  | a :: l₁, b :: l₂, c, h => by
    rcases List.mem_cons.1 (by simpa using h) with h1 | h2
    · exact ⟨a, List.mem_cons_self a l₁, b, List.mem_cons_self b l₂, h1⟩
    · obtain ⟨a', ha, b', hb, hc⟩ := exists_of_mem_zipWith f l₁ l₂ c h2
      exact ⟨a', List.mem_cons_of_mem a ha, b', List.mem_cons_of_mem b hb, hc⟩

theorem flatten_replicate_zero (n d : ℕ) :
    (List.replicate n (List.replicate d (0:ℚ))).flatten = List.replicate (n * d) 0 := by
  induction n with
  | zero => simp
  | succ m ih =>
    rw [List.replicate_succ, List.flatten_cons, ih, Nat.succ_mul, Nat.add_comm,
      List.replicate_add]

theorem getD_replicate_of_lt {α : Type _} (n : ℕ) (a : α) (i : ℕ) (d : α) (h : i < n) :
    (List.replicate n a).getD i d = a := by
  rw [List.getD_eq_getElem?_getD, List.getElem?_eq_getElem (by simpa using h)]
  simp

theorem getD_replicate_self {α : Type _} (n : ℕ) (a : α) (i : ℕ) :
    (List.replicate n a).getD i a = a := by
  rcases lt_or_ge i n with h | h
  · exact getD_replicate_of_lt n a i a h
  · exact getD_eq_of_le _ i a (by simpa using h)

theorem argminAux_of_not_lt (l : List ℚ) :
    ∀ (i bi : ℕ) (bv : ℚ), (∀ w ∈ l, ¬ w < bv) → argminAux l i bi bv = bi := by
  induction l with
  | nil => intro i bi bv _; rfl
  | cons v rest ih =>
    intro i bi bv h
    rw [argminAux, if_neg (h v (List.mem_cons_self v rest))]
    exact ih (i + 1) bi bv (fun w hw => h w (List.mem_cons_of_mem v hw))

theorem argmin_replicate (k : ℕ) (v : ℚ) (hk : 1 ≤ k) :
    argmin (List.replicate k v) = 0 := by
  cases k with
  | zero => omega
  | succ m =>
    rw [List.replicate_succ]
    show argminAux (List.replicate m v) 1 0 v = 0
    exact argminAux_of_not_lt _ 1 0 v
      (fun w hw => by rw [List.eq_of_mem_replicate hw]; exact lt_irrefl v)

theorem dot_replicate_zero (l : Vec) : ∀ d : ℕ, dot l (List.replicate d 0) = 0 := by
  induction l with
  | nil => intro d; simp [dot]
  | cons a l ih =>
    intro d
    cases d with
    | zero => simp [dot]
    | succ m =>
      rw [List.replicate_succ]
      show (a * 0 + (List.zipWith (fun p q => p * q) l (List.replicate m 0)).sum) = 0
      have := ih m
      rw [dot] at this
      rw [this]
      ring

theorem sumSq_replicate_zero (d : ℕ) : sumSq (List.replicate d (0:ℚ)) = 0 := by
  simp [sumSq, List.map_replicate, List.sum_replicate]

theorem centroids_zero_state (k d : ℕ) :
    centroids ⟨List.replicate k 0, List.replicate k (List.replicate d 0)⟩ =
      List.replicate k (List.replicate d 0) := by
  rw [centroids]
  show List.zipWith _ (List.replicate k (List.replicate d 0)) (List.replicate k 0) = _
  rw [List.zipWith_replicate]
  simp [divideNoNan]

/-! ### Claims -/

/-- C7: the lazy build raises a configuration error iff
`depth % num_heads != 0`; on success it creates zero-initialized
`counts` of shape `[k]` and `sums` of shape `[k, depth / num_heads]`. -/
theorem build_configuration_error (vq : VQ) (depth : ℕ) :
    (depth % vq.numHeads ≠ 0 → build vq depth =
      Except.error "Input depth must be a multiple of the number of heads.") ∧
    (depth % vq.numHeads = 0 → build vq depth =
      Except.ok ⟨List.replicate vq.k 0,
        List.replicate vq.k (List.replicate (depth / vq.numHeads) 0)⟩) := by
  constructor <;> intro h <;> simp [build, h]

/-- Witness for C7 at `k = 3`, `num_heads = 2`: `depth = 4` builds the
zero state, `depth = 5` raises the configuration error. -/
theorem build_configuration_error_witness :
    build ⟨3, 99/100, 0, 2, 1/5⟩ 4 =
      Except.ok ⟨List.replicate 3 0, List.replicate 3 (List.replicate 2 0)⟩ ∧
    build ⟨3, 99/100, 0, 2, 1/5⟩ 5 =
      Except.error "Input depth must be a multiple of the number of heads." :=
  ⟨(build_configuration_error ⟨3, 99/100, 0, 2, 1/5⟩ 4).2 (by decide),
   (build_configuration_error ⟨3, 99/100, 0, 2, 1/5⟩ 5).1 (by decide)⟩

/-- C2: one training-mode call updates the persistent state exactly by
`counts_new = gamma * counts_old + (1 - gamma) * batch_counts` and
`sums_new = gamma * sums_old + (1 - gamma) * batch_sums`, entrywise,
where `batch_counts i` is the number of flattened sub-vectors assigned
to centroid `i` and `batch_sums i` their sum; the resulting state is
fully determined by these two equations (no other mutation). -/
theorem ema_codebook_update_exact (vq : VQ) (depth : ℕ) (st : VQState)
    (x rand shuffled : Mat) :
    (quantize vq depth st x true rand shuffled).state.counts =
      List.zipWith (fun o b => vq.gamma * o + (1 - vq.gamma) * b) st.counts
        (batchCounts vq.k
          (nearestCodes
            (centroidsFor vq st (splitHeads vq.numHeads (depth / vq.numHeads) x).length
              true rand shuffled)
            (splitHeads vq.numHeads (depth / vq.numHeads) x))) ∧
    (quantize vq depth st x true rand shuffled).state.sums =
      List.zipWith (List.zipWith (fun o b => vq.gamma * o + (1 - vq.gamma) * b)) st.sums
        (batchSums vq.k (depth / vq.numHeads)
          (nearestCodes
            (centroidsFor vq st (splitHeads vq.numHeads (depth / vq.numHeads) x).length
              true rand shuffled)
            (splitHeads vq.numHeads (depth / vq.numHeads) x))
          (splitHeads vq.numHeads (depth / vq.numHeads) x)) := by
  have hfun : (fun o b => o - (1 - vq.gamma) * (o - b)) =
      (fun o b : ℚ => vq.gamma * o + (1 - vq.gamma) * b) := by
    funext o b; ring
  constructor
  · show emaUpdate vq.gamma st.counts _ = _
    rw [emaUpdate, hfun]
  · show emaUpdateMat vq.gamma st.sums _ = _
    rw [emaUpdateMat]
    rw [hfun]

/-- C8: the codebook state is mutated only by the training branch: an
inference-mode `quantize` leaves the state exactly unchanged, so
`unquantize` reads the same state before and after such a call (and
`unquantize` itself returns only a tensor, never a state). -/
theorem codebook_frame_inference (vq : VQ) (depth : ℕ) (st : VQState)
    (x rand shuffled : Mat) (code : List (List ℕ)) :
    (quantize vq depth st x false rand shuffled).state = st ∧
    unquantize vq depth ((quantize vq depth st x false rand shuffled).state) code =
      unquantize vq depth st code :=
  ⟨rfl, rfl⟩

/-- C9: non-negativity of `counts` is an invariant: the built state is
all-zero (hence non-negative), and when `gamma` lies in `[0, 1]` a
training-mode call maps non-negative `counts` to non-negative `counts`,
because the batch counts are cast naturals and the EMA update is a
convex combination. -/
theorem counts_nonneg_invariant (vq : VQ) (depth : ℕ) (st : VQState)
    (x rand shuffled : Mat)
    (hg0 : 0 ≤ vq.gamma) (hg1 : vq.gamma ≤ 1)
    (hc : ∀ v ∈ st.counts, 0 ≤ v) :
    (∀ v ∈ (quantize vq depth st x true rand shuffled).state.counts, 0 ≤ v) ∧
    (∀ st0, build vq depth = Except.ok st0 → ∀ v ∈ st0.counts, 0 ≤ v) := by
  constructor
  · intro v hv
    have hv' : v ∈ emaUpdate vq.gamma st.counts
        (batchCounts vq.k
          (nearestCodes
            (centroidsFor vq st (splitHeads vq.numHeads (depth / vq.numHeads) x).length
              true rand shuffled)
            (splitHeads vq.numHeads (depth / vq.numHeads) x))) := hv
    obtain ⟨o, ho, b, hb, hob⟩ := exists_of_mem_zipWith _ _ _ _ hv'
    have hbn : 0 ≤ b := by
      obtain ⟨i, _, hbi⟩ := List.mem_map.1 hb
      rw [← hbi]
      exact Nat.cast_nonneg _
    have hon : 0 ≤ o := hc o ho
    have hexp : v = vq.gamma * o + (1 - vq.gamma) * b := by rw [hob]; ring
    nlinarith [mul_nonneg hg0 hon, mul_nonneg (sub_nonneg.2 hg1) hbn]
  · intro st0 hst0 v hv
    by_cases hmod : depth % vq.numHeads = 0
    · have : st0.counts = List.replicate vq.k 0 := by
        rw [build, if_neg (by simpa using hmod)] at hst0
        cases hst0
        rfl
      rw [this] at hv
      rw [List.eq_of_mem_replicate hv]
    · rw [build, if_pos (by simpa using hmod)] at hst0
      cases hst0

/-- Witness for C9: at `k = 2`, `gamma = 1/2`, state
`counts = [2, 0]`, `sums = [[4], [0]]` and batch `[[1], [3]]`, every
entry of the updated counts is non-negative. -/
theorem counts_nonneg_invariant_witness :
    (∀ v ∈ (quantize ⟨2, 1/2, 0, 1, 1/5⟩ 1 ⟨[2, 0], [[4], [0]]⟩ [[1], [3]] true
        [[0], [100]] [[1], [3]]).state.counts, 0 ≤ v) ∧
    (∀ st0, build ⟨2, 1/2, 0, 1, 1/5⟩ 1 = Except.ok st0 → ∀ v ∈ st0.counts, 0 ≤ v) :=
  counts_nonneg_invariant ⟨2, 1/2, 0, 1, 1/5⟩ 1 ⟨[2, 0], [[4], [0]]⟩ [[1], [3]]
    [[0], [100]] [[1], [3]] (by norm_num) (by norm_num)
    (by
      intro v hv
      rcases List.mem_cons.1 hv with rfl | hv'
      · norm_num
      · rcases List.mem_cons.1 hv' with rfl | hv''
        · norm_num
        · simp at hv'')

/-- C6: centroid resolution uses safe division with `0 / 0 = 0`: on a
code row all of whose entries name never-assigned centroids
(`counts = 0`, `sums = 0`), `unquantize` returns the all-zero vector of
width `depth`, and division by a zero count is total and yields `0`. -/
theorem safe_division_dead_code (vq : VQ) (depth d : ℕ) (st : VQState)
    (code : List ℕ)
    (hk : st.counts.length = vq.k) (hsk : st.sums.length = vq.k)
    (hdepth : vq.numHeads * d = depth)
    (hlen : code.length = vq.numHeads)
    (hcode : ∀ ci ∈ code, ci < vq.k ∧ st.counts.getD ci 0 = 0 ∧
      st.sums.getD ci [] = List.replicate d 0) :
    unquantize vq depth st [code] = [List.replicate depth 0] ∧
    ∀ a : ℚ, divideNoNan a 0 = 0 := by
  constructor
  · show [(code.map (fun ci => (centroids st).getD ci [])).flatten] = _
    have hmap : code.map (fun ci => (centroids st).getD ci []) =
        code.map (fun _ => List.replicate d 0) := by
      apply List.map_congr_left
      intro ci hci
      obtain ⟨hlt, hc0, hs0⟩ := hcode ci hci
      rw [centroids, getD_zipWith_of_lt _ _ _ ci [] 0 [] (by omega) (by omega), hc0, hs0]
      simp [divideNoNan]
    rw [hmap, List.map_const', hlen, flatten_replicate_zero, hdepth]
  · intro a; simp [divideNoNan]

/-- Witness for C6 at `k = 2`, `num_heads = 2`, `depth = 2`, state
`counts = [0, 5]`, `sums = [[0], [10]]`: the code row `[0, 0]` (a dead
centroid on both heads) unquantizes to the zero vector of width 2. -/
theorem safe_division_dead_code_witness :
    unquantize ⟨2, 99/100, 0, 2, 1/5⟩ 2 ⟨[0, 5], [[0], [10]]⟩ [[0, 0]] =
      [List.replicate 2 0] ∧
    ∀ a : ℚ, divideNoNan a 0 = 0 :=
  safe_division_dead_code ⟨2, 99/100, 0, 2, 1/5⟩ 2 1 ⟨[0, 5], [[0], [10]]⟩ [0, 0]
    rfl rfl rfl rfl
    (by
      intro ci hci
      have : ci = 0 := by
        rcases List.mem_cons.1 hci with h | h
        · exact h
        · simpa using h
      subst this
      refine ⟨by norm_num, rfl, rfl⟩)

/-- C10: immediately after the lazy build (all-zero `counts` and
`sums`) and before any training call, inference-mode `quantize` maps
every input to the all-zero code tensor (all per-row distances tie and
`argmin` takes index 0) and an all-zero quantized tensor. -/
theorem fresh_state_inference_zero (vq : VQ) (depth : ℕ) (st : VQState)
    (x rand shuffled : Mat)
    (hb : build vq depth = Except.ok st)
    (hk : 1 ≤ vq.k)
    (hx : ∀ row ∈ x, row.length = depth) :
    (quantize vq depth st x false rand shuffled).code =
      List.replicate x.length (List.replicate vq.numHeads 0) ∧
    (quantize vq depth st x false rand shuffled).z =
      List.replicate x.length (List.replicate depth 0) := by
  by_cases hmod : depth % vq.numHeads = 0
  case neg =>
    rw [build, if_pos (by simpa using hmod)] at hb
    cases hb
  case pos =>
  rw [build, if_neg (by simp [hmod])] at hb
  have hst : st = ⟨List.replicate vq.k 0,
      List.replicate vq.k (List.replicate (depth / vq.numHeads) 0)⟩ := by
    cases hb; rfl
  subst hst
  have hdH : vq.numHeads * (depth / vq.numHeads) = depth :=
    Nat.mul_div_cancel' (Nat.dvd_of_mod_eq_zero hmod)
  have he : centroidsFor vq
      ⟨List.replicate vq.k 0, List.replicate vq.k (List.replicate (depth / vq.numHeads) 0)⟩
      (splitHeads vq.numHeads (depth / vq.numHeads) x).length false rand shuffled =
      List.replicate vq.k (List.replicate (depth / vq.numHeads) 0) := by
    rw [centroidsFor]
    show centroids _ = _
    exact centroids_zero_state vq.k (depth / vq.numHeads)
  have hc : nearestCodes
      (List.replicate vq.k (List.replicate (depth / vq.numHeads) 0))
      (splitHeads vq.numHeads (depth / vq.numHeads) x) =
      List.replicate (vq.numHeads * x.length) 0 := by
    rw [nearestCodes]
    have : ∀ r ∈ splitHeads vq.numHeads (depth / vq.numHeads) x,
        argmin (distanceRow (List.replicate vq.k (List.replicate (depth / vq.numHeads) 0)) r)
          = 0 := by
      intro r _
      rw [distanceRow, List.map_replicate]
      exact argmin_replicate vq.k _ hk
    rw [List.map_congr_left this, List.map_const', length_splitHeads]
  have hcD : ∀ i, (List.replicate (vq.numHeads * x.length) (0:ℕ)).getD i 0 = 0 :=
    fun i => getD_replicate_self _ 0 i
  constructor
  · show codesReshape vq.numHeads x.length
        (nearestCodes _ (splitHeads vq.numHeads (depth / vq.numHeads) x)) = _
    rw [he, hc, codesReshape]
    have hrow : ∀ nn ∈ List.range x.length,
        (List.range vq.numHeads).map
          (fun h => (List.replicate (vq.numHeads * x.length) (0:ℕ)).getD (h * x.length + nn) 0)
          = List.replicate vq.numHeads 0 := by
      intro nn _
      rw [show (fun h => (List.replicate (vq.numHeads * x.length) (0:ℕ)).getD
          (h * x.length + nn) 0) = fun h => 0 from funext (fun h => hcD _)]
      rw [List.map_const', List.length_range]
    rw [List.map_congr_left hrow, List.map_const', List.length_range]
  · show List.zipWith (fun xr zr => List.zipWith stVal xr zr) x
        (unsplitHeads vq.numHeads x.length
          (lookupRows _ (nearestCodes _ (splitHeads vq.numHeads (depth / vq.numHeads) x)))) = _
    rw [he, hc]
    have hlook : lookupRows (List.replicate vq.k (List.replicate (depth / vq.numHeads) 0))
        (List.replicate (vq.numHeads * x.length) 0) =
        List.replicate (vq.numHeads * x.length) (List.replicate (depth / vq.numHeads) 0) := by
      rw [lookupRows, List.map_replicate, getD_replicate_of_lt _ _ _ _ hk]
    rw [hlook]
    have hun : unsplitHeads vq.numHeads x.length
        (List.replicate (vq.numHeads * x.length) (List.replicate (depth / vq.numHeads) 0)) =
        List.replicate x.length (List.replicate depth 0) := by
      rw [unsplitHeads]
      have hrow : ∀ nn ∈ List.range x.length,
          ((List.range vq.numHeads).map
            (fun h => (List.replicate (vq.numHeads * x.length)
              (List.replicate (depth / vq.numHeads) (0:ℚ))).getD (h * x.length + nn) [])).flatten
            = List.replicate depth 0 := by
        intro nn hnn
        rw [List.mem_range] at hnn
        have hin : ∀ h ∈ List.range vq.numHeads,
            (List.replicate (vq.numHeads * x.length)
              (List.replicate (depth / vq.numHeads) (0:ℚ))).getD (h * x.length + nn) [] =
            List.replicate (depth / vq.numHeads) 0 := by
          intro h hh
          rw [List.mem_range] at hh
          apply getD_replicate_of_lt
          have h1 : h + 1 ≤ vq.numHeads := hh
          have h2 : (h + 1) * x.length ≤ vq.numHeads * x.length :=
            Nat.mul_le_mul_right _ h1
          have h3 : h * x.length + x.length = (h + 1) * x.length := by ring
          omega
        rw [List.map_congr_left hin, List.map_const', List.length_range,
          flatten_replicate_zero, hdH]
      rw [List.map_congr_left hrow, List.map_const', List.length_range]
    rw [hun]
    apply stMat_rows_eq
    · simp
    · intro i
      rcases lt_or_ge i x.length with hi | hi
      · rw [getD_replicate_of_lt _ _ _ _ hi, List.length_replicate]
        have hxm : x.getD i [] ∈ x := getD_mem_of_lt x i [] hi
        rw [hx _ hxm]
      · rw [getD_eq_of_le _ i [] (by simpa using hi)]
        simp

/-- Witness for C10: with `k = 2`, `num_heads = 2`, `depth = 2` and
the freshly built zero state, the input `[[1, 2]]` quantizes to code
`[[0, 0]]` and value `[[0, 0]]`. -/
theorem fresh_state_inference_zero_witness :
    (quantize ⟨2, 99/100, 0, 2, 1/5⟩ 2
        ⟨List.replicate 2 0, List.replicate 2 (List.replicate 1 0)⟩
        [[1, 2]] false [] []).code = List.replicate 1 (List.replicate 2 0) ∧
    (quantize ⟨2, 99/100, 0, 2, 1/5⟩ 2
        ⟨List.replicate 2 0, List.replicate 2 (List.replicate 1 0)⟩
        [[1, 2]] false [] []).z = List.replicate 1 (List.replicate 2 0) :=
  fresh_state_inference_zero ⟨2, 99/100, 0, 2, 1/5⟩ 2
    ⟨List.replicate 2 0, List.replicate 2 (List.replicate 1 0)⟩ [[1, 2]] [] []
    rfl (by norm_num)
    (by
      intro row hr
      rw [List.mem_singleton] at hr
      subst hr
      rfl)

theorem getD_length_le {α : Type _} (l : List (List α)) (i m : ℕ)
    (h : ∀ row ∈ l, row.length ≤ m) : (l.getD i []).length ≤ m := by
  rcases lt_or_ge i l.length with hi | hi
  · exact h _ (getD_mem_of_lt l i [] hi)
  · rw [getD_eq_of_le l i [] hi]
    simp

theorem mem_scatterUpdate :
    ∀ (idx : List ℕ) (vals base : Mat) (row : Vec),
      row ∈ scatterUpdate base idx vals → row ∈ base ∨ row ∈ vals
  | [], vals, base, row, h => Or.inl h
  | _ :: _, [], base, row, h => Or.inl h
  | a :: idx, v :: vals, base, row, h => by
    have h' : row ∈ scatterUpdate (base.set a v) idx vals := h
    rcases mem_scatterUpdate idx vals (base.set a v) row h' with hb | hv
    · rcases List.mem_or_eq_of_mem_set hb with hb' | hveq
      · exact Or.inl hb'
      · rw [hveq]
        exact Or.inr (List.mem_cons_self v vals)
    · exact Or.inr (List.mem_cons_of_mem v hv)

theorem trainCentroids_row_le (vq : VQ) (st : VQState) (n d : ℕ) (rand shuffled : Mat)
    (hs : ∀ row ∈ st.sums, row.length ≤ d)
    (hr : ∀ row ∈ rand, row.length ≤ d)
    (hsh : ∀ row ∈ shuffled, row.length ≤ d) :
    ∀ row ∈ trainCentroids vq st n rand shuffled, row.length ≤ d := by
  intro row hrow
  rw [trainCentroids] at hrow
  obtain ⟨i, _, hi⟩ := List.mem_map.1 hrow
  by_cases hkeep : (keepMask vq st.counts n).getD i false
  · rw [if_pos hkeep] at hi
    rw [← hi, List.length_map]
    exact getD_length_le st.sums i d hs
  · rw [if_neg hkeep] at hi
    rw [← hi]
    apply getD_length_le
    intro r hrm
    rcases mem_scatterUpdate _ _ _ r hrm with hrand | htake
    · exact hr r hrand
    · exact hsh r (List.mem_of_mem_take htake)

theorem centroids_row_le (st : VQState) (d : ℕ)
    (hs : ∀ row ∈ st.sums, row.length ≤ d) :
    ∀ row ∈ centroids st, row.length ≤ d := by
  intro row hrow
  obtain ⟨s, hsm, c, _, hrc⟩ := exists_of_mem_zipWith _ _ _ _ hrow
  rw [hrc, List.length_map]
  exact hs s hsm

theorem centroidsFor_row_le (vq : VQ) (st : VQState) (n d : ℕ) (training : Bool)
    (rand shuffled : Mat)
    (hs : ∀ row ∈ st.sums, row.length ≤ d)
    (hr : ∀ row ∈ rand, row.length ≤ d)
    (hsh : ∀ row ∈ shuffled, row.length ≤ d) :
    ∀ row ∈ centroidsFor vq st n training rand shuffled, row.length ≤ d := by
  cases training with
  | true => exact trainCentroids_row_le vq st n d rand shuffled hs hr hsh
  | false => exact centroids_row_le st d hs

theorem quantize_z_eq_lookup (vq : VQ) (depth : ℕ) (st : VQState) (x : Mat)
    (training : Bool) (rand shuffled : Mat)
    (hx : ∀ row ∈ x, row.length = depth)
    (he : ∀ row ∈ centroidsFor vq st
      (splitHeads vq.numHeads (depth / vq.numHeads) x).length training rand shuffled,
      row.length ≤ depth / vq.numHeads) :
    (quantize vq depth st x training rand shuffled).z =
      quantLookup vq depth st x training rand shuffled := by
  apply stMat_rows_eq
  · simp [quantLookup, unsplitHeads]
  · intro i
    rcases lt_or_ge i x.length with hi | hi
    · show ((unsplitHeads vq.numHeads x.length _).getD i []).length ≤ _
      rw [unsplitHeads, getD_range_map _ _ _ _ hi]
      rw [List.length_flatten]
      have hb : ∀ len ∈ ((List.range vq.numHeads).map
          (fun h => (lookupRows
            (centroidsFor vq st (splitHeads vq.numHeads (depth / vq.numHeads) x).length
              training rand shuffled)
            (nearestCodes
              (centroidsFor vq st (splitHeads vq.numHeads (depth / vq.numHeads) x).length
                training rand shuffled)
              (splitHeads vq.numHeads (depth / vq.numHeads) x))).getD
                (h * x.length + i) [])).map List.length,
          len ≤ depth / vq.numHeads := by
        intro len hlen
        obtain ⟨r, hrm, hlr⟩ := List.mem_map.1 hlen
        obtain ⟨h, _, hrh⟩ := List.mem_map.1 hrm
        rw [← hlr, ← hrh]
        apply getD_length_le
        intro r' hr'
        obtain ⟨ci, _, hci⟩ := List.mem_map.1 hr'
        rw [← hci]
        exact getD_length_le _ ci _ he
      calc (((List.range vq.numHeads).map _).map List.length).sum
          ≤ (((List.range vq.numHeads).map _).map List.length).length •
            (depth / vq.numHeads) := List.sum_le_card_nsmul _ _ hb
        _ = vq.numHeads * (depth / vq.numHeads) := by
            simp [smul_eq_mul]
        _ ≤ depth := Nat.mul_div_le depth vq.numHeads
      · rw [hx _ (getD_mem_of_lt x i [] hi)]
    · show ((unsplitHeads vq.numHeads x.length _).getD i []).length ≤ _
      rw [unsplitHeads, getD_eq_of_le _ i [] (by simpa using hi)]
      simp

/-- C3: straight-through identity.  The forward value of `quantize`
equals the nearest-centroid lookup reassembled across heads
(`quantLookup`), and under the dual-number autodiff semantics the
straight-through combinator `x + stop_gradient(q - x)` has forward
value `q` and derivative equal to that of `x` — gradients flow as if
`z` were `x`. -/
theorem straight_through_quantize (vq : VQ) (depth : ℕ) (st : VQState) (x : Mat)
    (training : Bool) (rand shuffled : Mat)
    (hx : ∀ row ∈ x, row.length = depth)
    (hs : ∀ row ∈ st.sums, row.length ≤ depth / vq.numHeads)
    (hr : ∀ row ∈ rand, row.length ≤ depth / vq.numHeads)
    (hsh : ∀ row ∈ shuffled, row.length ≤ depth / vq.numHeads) :
    (quantize vq depth st x training rand shuffled).z =
      quantLookup vq depth st x training rand shuffled ∧
    ∀ xd qd : Dual, straightThrough xd qd = ⟨qd.val, xd.der⟩ := by
  constructor
  · exact quantize_z_eq_lookup vq depth st x training rand shuffled hx
      (centroidsFor_row_le vq st _ _ training rand shuffled hs hr hsh)
  · intro xd qd
    show Dual.add xd (stopGradient (Dual.sub qd xd)) = _
    rw [Dual.sub, stopGradient, Dual.add]
    simp only [Dual.mk.injEq]
    exact ⟨by ring, by ring⟩

/-- Witness for C3: `k = 2`, one head, `depth = 2`, centroids
`[[0,0],[10,10]]`; the forward value of an inference call on
`[[1,1],[9,9]]` equals the centroid lookup, and the straight-through
combinator behaves as the identity in the derivative. -/
theorem straight_through_quantize_witness :
    (quantize ⟨2, 99/100, 0, 1, 1/5⟩ 2 ⟨[1, 1], [[0, 0], [10, 10]]⟩
        [[1, 1], [9, 9]] false [] []).z =
      quantLookup ⟨2, 99/100, 0, 1, 1/5⟩ 2 ⟨[1, 1], [[0, 0], [10, 10]]⟩
        [[1, 1], [9, 9]] false [] [] ∧
    ∀ xd qd : Dual, straightThrough xd qd = ⟨qd.val, xd.der⟩ :=
  straight_through_quantize ⟨2, 99/100, 0, 1, 1/5⟩ 2 ⟨[1, 1], [[0, 0], [10, 10]]⟩
    [[1, 1], [9, 9]] false [] []
    (by
      intro row hr
      rcases List.mem_cons.1 hr with rfl | hr'
      · rfl
      · rw [List.mem_singleton] at hr'
        subst hr'
        rfl)
    (by
      intro row hr
      rcases List.mem_cons.1 hr with rfl | hr'
      · norm_num
      · rw [List.mem_singleton] at hr'
        subst hr'
        norm_num)
    (by intro row hr; simp at hr)
    (by intro row hr; simp at hr)

/-- C4: round-trip.  Feeding the code returned by an inference-mode
`quantize` into `unquantize` reproduces the quantized tensor `z` in
forward value, including the reassembly of the per-head chunks into
width `depth`. -/
theorem unquantize_roundtrip (vq : VQ) (depth : ℕ) (st : VQState) (x : Mat)
    (rand shuffled : Mat)
    (hx : ∀ row ∈ x, row.length = depth)
    (hs : ∀ row ∈ st.sums, row.length ≤ depth / vq.numHeads) :
    unquantize vq depth st ((quantize vq depth st x false rand shuffled).code) =
      (quantize vq depth st x false rand shuffled).z := by
  have hz : (quantize vq depth st x false rand shuffled).z =
      quantLookup vq depth st x false rand shuffled :=
    quantize_z_eq_lookup vq depth st x false rand shuffled hx
      (centroids_row_le st _ hs)
  rw [hz]
  show (codesReshape vq.numHeads x.length
      (nearestCodes (centroids st) (splitHeads vq.numHeads (depth / vq.numHeads) x))).map
      (fun row => (row.map (fun ci => (centroids st).getD ci [])).flatten) =
    unsplitHeads vq.numHeads x.length
      (lookupRows (centroids st)
        (nearestCodes (centroids st) (splitHeads vq.numHeads (depth / vq.numHeads) x)))
  rw [codesReshape, unsplitHeads, List.map_map]
  apply List.map_congr_left
  intro nn hnn
  rw [List.mem_range] at hnn
  show (((List.range vq.numHeads).map _).map _).flatten = _
  rw [List.map_map]
  congr 1
  apply List.map_congr_left
  intro h hh
  rw [List.mem_range] at hh
  have hcl : (nearestCodes (centroids st)
      (splitHeads vq.numHeads (depth / vq.numHeads) x)).length =
      vq.numHeads * x.length := by
    rw [nearestCodes, List.length_map, length_splitHeads]
  have hidx : h * x.length + nn < vq.numHeads * x.length := by
    have h2 : (h + 1) * x.length ≤ vq.numHeads * x.length :=
      Nat.mul_le_mul_right _ hh
    have h3 : h * x.length + x.length = (h + 1) * x.length := by ring
    omega
  show (centroids st).getD
      ((nearestCodes (centroids st) (splitHeads vq.numHeads (depth / vq.numHeads) x)).getD
        (h * x.length + nn) 0) [] =
    (lookupRows (centroids st)
      (nearestCodes (centroids st) (splitHeads vq.numHeads (depth / vq.numHeads) x))).getD
        (h * x.length + nn) []
  rw [lookupRows, getD_map_of_lt _ _ _ 0 [] (by rw [hcl]; exact hidx)]

/-- Witness for C4: `k = 2`, one head, `depth = 2`, centroids
`[[0,0],[10,10]]`, input `[[1,1],[9,9]]`: unquantizing the returned
codes reproduces the returned `z`. -/
theorem unquantize_roundtrip_witness :
    unquantize ⟨2, 99/100, 0, 1, 1/5⟩ 2 ⟨[1, 1], [[0, 0], [10, 10]]⟩
        ((quantize ⟨2, 99/100, 0, 1, 1/5⟩ 2 ⟨[1, 1], [[0, 0], [10, 10]]⟩
          [[1, 1], [9, 9]] false [] []).code) =
      (quantize ⟨2, 99/100, 0, 1, 1/5⟩ 2 ⟨[1, 1], [[0, 0], [10, 10]]⟩
        [[1, 1], [9, 9]] false [] []).z :=
  unquantize_roundtrip ⟨2, 99/100, 0, 1, 1/5⟩ 2 ⟨[1, 1], [[0, 0], [10, 10]]⟩
    [[1, 1], [9, 9]] [] []
    (by
      intro row hr
      rcases List.mem_cons.1 hr with rfl | hr'
      · rfl
      · rw [List.mem_singleton] at hr'
        subst hr'
        rfl)
    (by
      intro row hr
      rcases List.mem_cons.1 hr with rfl | hr'
      · norm_num
      · rw [List.mem_singleton] at hr'
        subst hr'
        norm_num)

theorem scatterUpdate_length :
    ∀ (idx : List ℕ) (vals base : Mat), (scatterUpdate base idx vals).length = base.length
  | [], vals, base => rfl
  | _ :: _, [], base => rfl
  | a :: idx, v :: vals, base => by
    show (scatterUpdate (base.set a v) idx vals).length = _
    rw [scatterUpdate_length idx vals (base.set a v), List.length_set]

theorem scatterUpdate_getD_not_mem :
    ∀ (idx : List ℕ) (vals base : Mat) (i : ℕ), i ∉ idx →
      (scatterUpdate base idx vals).getD i [] = base.getD i []
  | [], vals, base, i, _ => rfl
  | _ :: _, [], base, i, _ => rfl
  | a :: idx, v :: vals, base, i, h => by
    show (scatterUpdate (base.set a v) idx vals).getD i [] = _
    rw [scatterUpdate_getD_not_mem idx vals (base.set a v) i
      (fun hm => h (List.mem_cons_of_mem a hm))]
    have hne : a ≠ i := fun heq => h (heq ▸ List.mem_cons_self a idx)
    rw [List.getD_eq_getElem?_getD, List.getD_eq_getElem?_getD, List.getElem?_set_ne hne]

theorem scatterUpdate_getD_at :
    ∀ (idx : List ℕ) (vals base : Mat) (j : ℕ), idx.Nodup →
      j < idx.length → j < vals.length → (∀ m ∈ idx, m < base.length) →
      (scatterUpdate base idx vals).getD (idx.getD j 0) [] = vals.getD j []
  | [], _, _, j, _, hj, _, _ => absurd hj (by simp)
  | _ :: _, [], _, j, _, _, hv, _ => absurd hv (by simp)
  | a :: idx, v :: vals, base, 0, hnd, _, _, hmem => by
    show (scatterUpdate (base.set a v) idx vals).getD a [] = v
    rw [scatterUpdate_getD_not_mem idx vals (base.set a v) a
      (List.Nodup.not_mem hnd)]
    have ha : a < base.length := hmem a (List.mem_cons_self a idx)
    rw [List.getD_eq_getElem?_getD, List.getElem?_set_self]
    · rfl
    · exact ha
  | a :: idx, v :: vals, base, j + 1, hnd, hj, hv, hmem => by
    show (scatterUpdate (base.set a v) idx vals).getD (idx.getD j 0) [] = vals.getD j []
    exact scatterUpdate_getD_at idx vals (base.set a v) j (List.Nodup.of_cons hnd)
      (by simpa using hj) (by simpa using hv)
      (fun m hm => by rw [List.length_set]; exact hmem m (List.mem_cons_of_mem a hm))

theorem keepMask_getD (vq : VQ) (counts : List ℚ) (n i : ℕ) (hi : i < counts.length) :
    (keepMask vq counts n).getD i false =
      decide (vq.restartThreshold * (n : ℚ) < counts.getD i 0 * (vq.k : ℚ)) :=
  getD_map_of_lt _ counts i 0 false hi

theorem mem_restartIndices (keep : List Bool) (i : ℕ) :
    i ∈ restartIndices keep ↔ i < keep.length ∧ keep.getD i false = false := by
  rw [restartIndices, List.mem_filter, List.mem_range]
  simp

theorem nodup_restartIndices (keep : List Bool) : (restartIndices keep).Nodup :=
  List.Nodup.filter _ (List.nodup_range keep.length)

theorem length_keepMask (vq : VQ) (counts : List ℚ) (n : ℕ) :
    (keepMask vq counts n).length = counts.length := List.length_map counts _

theorem trainCentroids_getD (vq : VQ) (st : VQState) (n : ℕ) (rand shuffled : Mat)
    (i : ℕ) (hi : i < st.counts.length) :
    (trainCentroids vq st n rand shuffled).getD i [] =
      if (keepMask vq st.counts n).getD i false then
        (st.sums.getD i []).map (fun v => divideNoNan v (st.counts.getD i 0))
      else
        (scatterUpdate rand
          ((restartIndices (keepMask vq st.counts n)).take
            (min (restartIndices (keepMask vq st.counts n)).length n))
          (shuffled.take
            (min (restartIndices (keepMask vq st.counts n)).length n))).getD i [] :=
  getD_range_map _ st.counts.length i [] hi

/-- C1: training-mode centroid computation.  Over the head-split batch
(whose first dimension is `num_heads * N`): a centroid is kept iff
`counts[i] * k > restart_threshold * n`; kept centroids equal
`sums[i] / counts[i]` under safe division; the first
`n_replace = min(#dead, n)` dead centroids (in ascending index order)
receive the first `n_replace` rows of the shuffled batch; the
remaining dead centroids keep their uniform random draw.  Finally, in
the concrete scenario `k = 4`, `counts = [10, 0, 0, 10]`,
`restart_threshold = 1/10`, `n = 2`, exactly centroids 1 and 2 are
dead and receive the two batch rows while centroids 0 and 3 equal
`sums / counts`. -/
theorem restart_logic_correct (vq : VQ) (st : VQState) (n : ℕ) (rand shuffled : Mat)
    (hc : st.counts.length = vq.k)
    (hrand : rand.length = vq.k)
    (hshuf : n ≤ shuffled.length) :
    (∀ (d : ℕ) (x : Mat), (splitHeads vq.numHeads d x).length = vq.numHeads * x.length) ∧
    (∀ i < vq.k, ((keepMask vq st.counts n).getD i false = true ↔
      vq.restartThreshold * (n : ℚ) < st.counts.getD i 0 * (vq.k : ℚ))) ∧
    (∀ i < vq.k, vq.restartThreshold * (n : ℚ) < st.counts.getD i 0 * (vq.k : ℚ) →
      (trainCentroids vq st n rand shuffled).getD i [] =
        (st.sums.getD i []).map (fun v => divideNoNan v (st.counts.getD i 0))) ∧
    (∀ j < min (restartIndices (keepMask vq st.counts n)).length n,
      (trainCentroids vq st n rand shuffled).getD
        ((restartIndices (keepMask vq st.counts n)).getD j 0) [] = shuffled.getD j []) ∧
    (∀ i < vq.k, ¬ vq.restartThreshold * (n : ℚ) < st.counts.getD i 0 * (vq.k : ℚ) →
      i ∉ (restartIndices (keepMask vq st.counts n)).take
        (min (restartIndices (keepMask vq st.counts n)).length n) →
      (trainCentroids vq st n rand shuffled).getD i [] = rand.getD i []) ∧
    trainCentroids ⟨4, 99/100, 1/10, 1, 1/5⟩ ⟨[10, 0, 0, 10], [[20], [0], [0], [30]]⟩ 2
      [[5], [6], [7], [8]] [[100], [200]] = [[2], [100], [200], [3]] := by
  have hklen : (keepMask vq st.counts n).length = st.counts.length :=
    length_keepMask vq st.counts n
  refine ⟨fun d x => length_splitHeads vq.numHeads d x, ?_, ?_, ?_, ?_, ?_⟩
  · intro i hi
    rw [keepMask_getD vq st.counts n i (by omega)]
    simp
  · intro i hi hkeep
    rw [trainCentroids_getD vq st n rand shuffled i (by omega),
      if_pos (by rw [keepMask_getD vq st.counts n i (by omega)]; simpa using hkeep)]
  · intro j hj
    have hjr : j < (restartIndices (keepMask vq st.counts n)).length := lt_of_lt_of_le hj
      (min_le_left _ _)
    have hjn : j < n := lt_of_lt_of_le hj (min_le_right _ _)
    have hmem : (restartIndices (keepMask vq st.counts n)).getD j 0 ∈
        restartIndices (keepMask vq st.counts n) :=
      getD_mem_of_lt _ j 0 hjr
    have hdead := (mem_restartIndices _ _).1 hmem
    have hlt : (restartIndices (keepMask vq st.counts n)).getD j 0 < st.counts.length := by
      omega
    rw [trainCentroids_getD vq st n rand shuffled _ hlt, if_neg (by rw [hdead.2]; simp)]
    have htakeidx : ((restartIndices (keepMask vq st.counts n)).take
        (min (restartIndices (keepMask vq st.counts n)).length n)).getD j 0 =
        (restartIndices (keepMask vq st.counts n)).getD j 0 := by
      rw [List.getD_eq_getElem?_getD, List.getD_eq_getElem?_getD, List.getElem?_take,
        if_pos hj]
    have htakev : (shuffled.take
        (min (restartIndices (keepMask vq st.counts n)).length n)).getD j [] =
        shuffled.getD j [] := by
      rw [List.getD_eq_getElem?_getD, List.getD_eq_getElem?_getD, List.getElem?_take,
        if_pos hj]
    rw [← htakeidx, ← htakev]
    apply scatterUpdate_getD_at
    · exact List.Sublist.nodup (List.take_sublist _ _) (nodup_restartIndices _)
    · rw [List.length_take]
      omega
    · rw [List.length_take]
      omega
    · intro m hm
      have hmr := (mem_restartIndices _ _).1 (List.mem_of_mem_take hm)
      omega
  · intro i hi hkeep htake
    rw [trainCentroids_getD vq st n rand shuffled i (by omega), if_neg
      (by rw [keepMask_getD vq st.counts n i (by omega)]; simpa using hkeep)]
    have hinr : i ∈ restartIndices (keepMask vq st.counts n) := by
      rw [mem_restartIndices]
      refine ⟨by omega, ?_⟩
      rw [keepMask_getD vq st.counts n i (by omega)]
      simpa using hkeep
    exact scatterUpdate_getD_not_mem _ _ _ i htake
  · norm_num [trainCentroids, keepMask, restartIndices, scatterUpdate, divideNoNan,
      List.range_succ]

/-- Witness for C1: the concrete restart scenario of the spec —
`k = 4`, `counts = [10, 0, 0, 10]`, `restart_threshold = 1/10`,
batch of 2 rows: centroids 1 and 2 get the two batch rows, centroids 0
and 3 get `sums / counts`. -/
theorem restart_logic_correct_witness :
    trainCentroids ⟨4, 99/100, 1/10, 1, 1/5⟩ ⟨[10, 0, 0, 10], [[20], [0], [0], [30]]⟩ 2
      [[5], [6], [7], [8]] [[100], [200]] = [[2], [100], [200], [3]] :=
  (restart_logic_correct ⟨4, 99/100, 1/10, 1, 1/5⟩
    ⟨[10, 0, 0, 10], [[20], [0], [0], [30]]⟩ 2 [[5], [6], [7], [8]] [[100], [200]]
    rfl rfl (by norm_num)).2.2.2.2.2

theorem getD_append_left {α : Type _} (l₁ l₂ : List α) (i : ℕ) (dd : α)
    (h : i < l₁.length) : (l₁ ++ l₂).getD i dd = l₁.getD i dd := by
  rw [List.getD_eq_getElem?_getD, List.getD_eq_getElem?_getD, List.getElem?_append_left h]

theorem getD_append_right_add {α : Type _} (l₁ l₂ : List α) (nn : ℕ) (dd : α) :
    (l₁ ++ l₂).getD (l₁.length + nn) dd = l₂.getD nn dd := by
  rw [List.getD_eq_getElem?_getD, List.getD_eq_getElem?_getD,
    List.getElem?_append_right (Nat.le_add_right _ _)]
  simp

theorem zipWith_map_same {α β γ δ : Type _} (f : α → β) (g : α → γ) (h : β → γ → δ)
    (l : List α) :
    List.zipWith h (l.map f) (l.map g) = l.map (fun a => h (f a) (g a)) := by
  induction l with
  | nil => simp
  | cons a l ih => simp [ih]

theorem unsplitHeads_two (N : ℕ) (LA LB : Mat) (hA : LA.length = N) :
    unsplitHeads 2 N (LA ++ LB) =
      List.zipWith (fun a b => a ++ b) (unsplitHeads 1 N LA) (unsplitHeads 1 N LB) := by
  rw [unsplitHeads, unsplitHeads, unsplitHeads, zipWith_map_same]
  apply List.map_congr_left
  intro nn hnn
  rw [List.mem_range] at hnn
  rw [show List.range 2 = [0, 1] from rfl, show List.range 1 = [0] from rfl]
  simp only [List.map_cons, List.map_nil, List.flatten_cons, List.flatten_nil,
    List.append_nil, Nat.zero_mul, Nat.one_mul, Nat.zero_add]
  rw [getD_append_left LA LB nn [] (by omega),
    show N + nn = LA.length + nn from by rw [hA], getD_append_right_add]

theorem codesReshape_two (N : ℕ) (cL cR : List ℕ) (hA : cL.length = N) :
    codesReshape 2 N (cL ++ cR) =
      List.zipWith (fun a b => a ++ b) (codesReshape 1 N cL) (codesReshape 1 N cR) := by
  rw [codesReshape, codesReshape, codesReshape, zipWith_map_same]
  apply List.map_congr_left
  intro nn hnn
  rw [List.mem_range] at hnn
  rw [show List.range 2 = [0, 1] from rfl, show List.range 1 = [0] from rfl]
  simp only [List.map_cons, List.map_nil, Nat.zero_mul, Nat.one_mul, Nat.zero_add]
  rw [getD_append_left cL cR nn 0 (by omega),
    show N + nn = cL.length + nn from by rw [hA], getD_append_right_add]
  rfl

/-- C5: heads are quantized independently against one shared codebook:
with `num_heads = 2`, an inference-mode `quantize` on input rows of
width `2 * d` returns exactly the concatenation (along the feature
axis) of the values, and of the codes, produced by two independent
single-head inference calls on the two width-`d` halves against the
same codebook state. -/
theorem head_independence (k : ℕ) (g thr w : ℚ) (d : ℕ) (st : VQState)
    (x rand shuffled : Mat)
    (hx : ∀ row ∈ x, row.length = 2 * d)
    (hs : ∀ row ∈ st.sums, row.length ≤ d) :
    (quantize ⟨k, g, thr, 2, w⟩ (2 * d) st x false rand shuffled).z =
      List.zipWith (fun a b => a ++ b)
        (quantize ⟨k, g, thr, 1, w⟩ d st (x.map (fun r => r.take d))
          false rand shuffled).z
        (quantize ⟨k, g, thr, 1, w⟩ d st (x.map (fun r => r.drop d))
          false rand shuffled).z ∧
    (quantize ⟨k, g, thr, 2, w⟩ (2 * d) st x false rand shuffled).code =
      List.zipWith (fun a b => a ++ b)
        (quantize ⟨k, g, thr, 1, w⟩ d st (x.map (fun r => r.take d))
          false rand shuffled).code
        (quantize ⟨k, g, thr, 1, w⟩ d st (x.map (fun r => r.drop d))
          false rand shuffled).code := by
  have hd2 : (2 * d) / 2 = d := Nat.mul_div_cancel_left d (by norm_num)
  have hxL : ∀ row ∈ x.map (fun r => r.take d), row.length = d := by
    intro row hr
    obtain ⟨r, hrm, hre⟩ := List.mem_map.1 hr
    rw [← hre, List.length_take, hx r hrm]
    omega
  have hxR : ∀ row ∈ x.map (fun r => r.drop d), row.length = d := by
    intro row hr
    obtain ⟨r, hrm, hre⟩ := List.mem_map.1 hr
    rw [← hre, List.length_drop, hx r hrm]
    omega
  have hsplit : splitHeads 2 d x =
      splitHeads 1 d (x.map (fun r => r.take d)) ++
      splitHeads 1 d (x.map (fun r => r.drop d)) := by
    rw [splitHeads, splitHeads, splitHeads,
      show List.range 2 = [0, 1] from rfl, show List.range 1 = [0] from rfl]
    simp [List.map_map, Function.comp_def, List.take_take]
  have hz2 : (quantize ⟨k, g, thr, 2, w⟩ (2 * d) st x false rand shuffled).z =
      quantLookup ⟨k, g, thr, 2, w⟩ (2 * d) st x false rand shuffled :=
    quantize_z_eq_lookup _ _ _ _ _ _ _ hx
      (by
        intro row hr
        rw [hd2]
        exact centroids_row_le st d hs row hr)
  have hzL : (quantize ⟨k, g, thr, 1, w⟩ d st (x.map (fun r => r.take d))
        false rand shuffled).z =
      quantLookup ⟨k, g, thr, 1, w⟩ d st (x.map (fun r => r.take d))
        false rand shuffled :=
    quantize_z_eq_lookup _ _ _ _ _ _ _ hxL
      (by
        intro row hr
        rw [Nat.div_one]
        exact centroids_row_le st d hs row hr)
  have hzR : (quantize ⟨k, g, thr, 1, w⟩ d st (x.map (fun r => r.drop d))
        false rand shuffled).z =
      quantLookup ⟨k, g, thr, 1, w⟩ d st (x.map (fun r => r.drop d))
        false rand shuffled :=
    quantize_z_eq_lookup _ _ _ _ _ _ _ hxR
      (by
        intro row hr
        rw [Nat.div_one]
        exact centroids_row_le st d hs row hr)
  have hq2 : quantLookup ⟨k, g, thr, 2, w⟩ (2 * d) st x false rand shuffled =
      unsplitHeads 2 x.length (lookupRows (centroids st)
        (nearestCodes (centroids st) (splitHeads 2 ((2 * d) / 2) x))) := rfl
  have hqL : quantLookup ⟨k, g, thr, 1, w⟩ d st (x.map (fun r => r.take d))
        false rand shuffled =
      unsplitHeads 1 (x.map (fun r => r.take d)).length (lookupRows (centroids st)
        (nearestCodes (centroids st)
          (splitHeads 1 (d / 1) (x.map (fun r => r.take d))))) := rfl
  have hqR : quantLookup ⟨k, g, thr, 1, w⟩ d st (x.map (fun r => r.drop d))
        false rand shuffled =
      unsplitHeads 1 (x.map (fun r => r.drop d)).length (lookupRows (centroids st)
        (nearestCodes (centroids st)
          (splitHeads 1 (d / 1) (x.map (fun r => r.drop d))))) := rfl
  rw [hd2] at hq2
  rw [Nat.div_one, List.length_map] at hqL
  rw [Nat.div_one, List.length_map] at hqR
  have hnc : nearestCodes (centroids st)
      (splitHeads 1 d (x.map (fun r => r.take d)) ++
        splitHeads 1 d (x.map (fun r => r.drop d))) =
      nearestCodes (centroids st) (splitHeads 1 d (x.map (fun r => r.take d))) ++
      nearestCodes (centroids st) (splitHeads 1 d (x.map (fun r => r.drop d))) :=
    List.map_append _ _ _
  have hlr : lookupRows (centroids st)
      (nearestCodes (centroids st) (splitHeads 1 d (x.map (fun r => r.take d))) ++
        nearestCodes (centroids st) (splitHeads 1 d (x.map (fun r => r.drop d)))) =
      lookupRows (centroids st)
        (nearestCodes (centroids st) (splitHeads 1 d (x.map (fun r => r.take d)))) ++
      lookupRows (centroids st)
        (nearestCodes (centroids st) (splitHeads 1 d (x.map (fun r => r.drop d)))) :=
    List.map_append _ _ _
  have hCLlen : (lookupRows (centroids st)
      (nearestCodes (centroids st)
        (splitHeads 1 d (x.map (fun r => r.take d))))).length = x.length := by
    simp [lookupRows, nearestCodes, length_splitHeads]
  have hcLlen : (nearestCodes (centroids st)
      (splitHeads 1 d (x.map (fun r => r.take d)))).length = x.length := by
    simp [nearestCodes, length_splitHeads]
  constructor
  · rw [hz2, hzL, hzR, hq2, hqL, hqR, hsplit, hnc, hlr]
    exact unsplitHeads_two x.length _ _ hCLlen
  · have hcode2 : (quantize ⟨k, g, thr, 2, w⟩ (2 * d) st x false rand shuffled).code =
        codesReshape 2 x.length
          (nearestCodes (centroids st) (splitHeads 2 ((2 * d) / 2) x)) := rfl
    have hcodeL : (quantize ⟨k, g, thr, 1, w⟩ d st (x.map (fun r => r.take d))
          false rand shuffled).code =
        codesReshape 1 (x.map (fun r => r.take d)).length
          (nearestCodes (centroids st)
            (splitHeads 1 (d / 1) (x.map (fun r => r.take d)))) := rfl
    have hcodeR : (quantize ⟨k, g, thr, 1, w⟩ d st (x.map (fun r => r.drop d))
          false rand shuffled).code =
        codesReshape 1 (x.map (fun r => r.drop d)).length
          (nearestCodes (centroids st)
            (splitHeads 1 (d / 1) (x.map (fun r => r.drop d)))) := rfl
    rw [hd2] at hcode2
    rw [Nat.div_one, List.length_map] at hcodeL
    rw [Nat.div_one, List.length_map] at hcodeR
    rw [hcode2, hcodeL, hcodeR, hsplit, hnc]
    exact codesReshape_two x.length _ _ hcLlen

/-- Witness for C5: `k = 2`, `d = 1`, centroids `[[0], [10]]`, input
`[[1, 9], [9, 1]]`: the two-head call equals the concatenation of two
single-head calls on the two column halves. -/
theorem head_independence_witness :
    (quantize ⟨2, 99/100, 0, 2, 1/5⟩ 2 ⟨[1, 1], [[0], [10]]⟩
        [[1, 9], [9, 1]] false [] []).z =
      List.zipWith (fun a b => a ++ b)
        (quantize ⟨2, 99/100, 0, 1, 1/5⟩ 1 ⟨[1, 1], [[0], [10]]⟩
          ([[1, 9], [9, 1]].map (fun r => r.take 1)) false [] []).z
        (quantize ⟨2, 99/100, 0, 1, 1/5⟩ 1 ⟨[1, 1], [[0], [10]]⟩
          ([[1, 9], [9, 1]].map (fun r => r.drop 1)) false [] []).z ∧
    (quantize ⟨2, 99/100, 0, 2, 1/5⟩ 2 ⟨[1, 1], [[0], [10]]⟩
        [[1, 9], [9, 1]] false [] []).code =
      List.zipWith (fun a b => a ++ b)
        (quantize ⟨2, 99/100, 0, 1, 1/5⟩ 1 ⟨[1, 1], [[0], [10]]⟩
          ([[1, 9], [9, 1]].map (fun r => r.take 1)) false [] []).code
        (quantize ⟨2, 99/100, 0, 1, 1/5⟩ 1 ⟨[1, 1], [[0], [10]]⟩
          ([[1, 9], [9, 1]].map (fun r => r.drop 1)) false [] []).code :=
  head_independence 2 (99/100) 0 (1/5) 1 ⟨[1, 1], [[0], [10]]⟩
    [[1, 9], [9, 1]] [] []
    (by
      intro row hr
      rcases List.mem_cons.1 hr with hr' | hr'
      · rw [hr']
        rfl
      · rw [List.mem_singleton] at hr'
        rw [hr']
        rfl)
    (by
      intro row hr
      rcases List.mem_cons.1 hr with hr' | hr'
      · rw [hr']
        decide
      · rw [List.mem_singleton] at hr'
        rw [hr']
        decide)

end DDSP
